import Mathlib

/-!
Verification of the natural-language specification of the
aws-alb-ingress-controller core against a shallow embedding of its two
source units:

* `pkg/util/types/awsstringslice.go` — `AWSStringSlice`, `Hash`, `Chunk`;
* the controller unit — `ALBController`, `Configure`, `OnUpdate`,
  `GetServiceNodePort`, `ingressToDelete`, `StateHandler`.

Go machine integers are embedded as `Nat`/`Int` with explicit `% 2^32`
where overflow matters; Go code that can panic or diverge is embedded as
an `Option`-returning function (`none` = no result is ever returned:
run-time panic or non-termination).  Go strings are embedded as `String`,
byte-wise operations via an explicit UTF-8 encoder (UTF-8 byte order and
code-point order agree, so lexicographic comparisons coincide).
-/

/-! ## Embedding of pkg/util/types/awsstringslice.go -/

/-- A Go `AWSStringSlice` is a `[]*string`; all operations of the source
dereference the pointers, so the slice is embedded as the list of the
pointed-to strings. -/
def AWSStringSlice := List String

/-- UTF-8 encoding of a single Unicode code point, as Go produces for
`[]byte(str)`. -/
def utf8Bytes (c : Nat) : List Nat :=
  if c < 0x80 then [c]
  else if c < 0x800 then [0xC0 + c / 64, 0x80 + c % 64]
  else if c < 0x10000 then [0xE0 + c / 4096, 0x80 + c / 64 % 64, 0x80 + c % 64]
  else [0xF0 + c / 262144, 0x80 + c / 4096 % 64, 0x80 + c / 64 % 64, 0x80 + c % 64]

/-- The byte sequence Go's `[]byte(*str)` produces for a string. -/
def stringBytes (s : String) : List Nat :=
  s.data.flatMap (fun ch => utf8Bytes ch.toNat)

/-- Truncation to a 32-bit word, Go's implicit `uint32` wrap-around. -/
def u32 (x : Nat) : Nat := x % 4294967296

/-- 32-bit left rotation (operand assumed `< 2^32`; the two parts occupy
disjoint bit ranges, so `+` is the bitwise or). -/
def rotl32 (x n : Nat) : Nat := u32 (u32 x * 2 ^ n) + u32 x / 2 ^ (32 - n)

/-- Bitwise complement of a 32-bit word. -/
def not32 (x : Nat) : Nat := Nat.xor (u32 x) 4294967295

/-- MD5 mixing function F (rounds 0–15). -/
def md5F (b c d : Nat) : Nat := Nat.lor (Nat.land b c) (Nat.land (not32 b) d)

/-- MD5 mixing function G (rounds 16–31). -/
def md5G (b c d : Nat) : Nat := Nat.lor (Nat.land d b) (Nat.land (not32 d) c)

/-- MD5 mixing function H (rounds 32–47). -/
def md5H (b c d : Nat) : Nat := Nat.xor b (Nat.xor c d)

/-- MD5 mixing function I (rounds 48–63). -/
def md5I (b c d : Nat) : Nat := Nat.xor c (Nat.lor b (not32 d))

/-- The 64 MD5 additive constants `floor(2^32 * abs(sin(i+1)))`. -/
def md5K : List Nat :=
  [0xd76aa478, 0xe8c7b756, 0x242070db, 0xc1bdceee,
   0xf57c0faf, 0x4787c62a, 0xa8304613, 0xfd469501,
   0x698098d8, 0x8b44f7af, 0xffff5bb1, 0x895cd7be,
   0x6b901122, 0xfd987193, 0xa679438e, 0x49b40821,
   0xf61e2562, 0xc040b340, 0x265e5a51, 0xe9b6c7aa,
   0xd62f105d, 0x02441453, 0xd8a1e681, 0xe7d3fbc8,
   0x21e1cde6, 0xc33707d6, 0xf4d50d87, 0x455a14ed,
   0xa9e3e905, 0xfcefa3f8, 0x676f02d9, 0x8d2a4c8a,
   0xfffa3942, 0x8771f681, 0x6d9d6122, 0xfde5380c,
   0xa4beea44, 0x4bdecfa9, 0xf6bb4b60, 0xbebfbc70,
   0x289b7ec6, 0xeaa127fa, 0xd4ef3085, 0x04881d05,
   0xd9d4d039, 0xe6db99e5, 0x1fa27cf8, 0xc4ac5665,
   0xf4292244, 0x432aff97, 0xab9423a7, 0xfc93a039,
   0x655b59c3, 0x8f0ccc92, 0xffeff47d, 0x85845dd1,
   0x6fa87e4f, 0xfe2ce6e0, 0xa3014314, 0x4e0811a1,
   0xf7537e82, 0xbd3af235, 0x2ad7d2bb, 0xeb86d391]

/-- The 64 MD5 per-round rotation amounts. -/
def md5S : List Nat :=
  [7, 12, 17, 22, 7, 12, 17, 22, 7, 12, 17, 22, 7, 12, 17, 22,
   5, 9, 14, 20, 5, 9, 14, 20, 5, 9, 14, 20, 5, 9, 14, 20,
   4, 11, 16, 23, 4, 11, 16, 23, 4, 11, 16, 23, 4, 11, 16, 23,
   6, 10, 15, 21, 6, 10, 15, 21, 6, 10, 15, 21, 6, 10, 15, 21]

/-- Little-endian bytes of a 32-bit word. -/
def toLE32 (n : Nat) : List Nat := (List.range 4).map (fun i => n / 2 ^ (8 * i) % 256)

/-- Little-endian bytes of a 64-bit word. -/
def toLE64 (n : Nat) : List Nat := (List.range 8).map (fun i => n / 2 ^ (8 * i) % 256)

/-- MD5 padding: a `0x80` byte, zeros up to 56 mod 64, then the bit length
as a little-endian 64-bit word. -/
def md5Pad (msg : List Nat) : List Nat :=
  msg ++ [0x80] ++ List.replicate ((56 + 64 - (msg.length + 1) % 64) % 64) 0
      ++ toLE64 (u32 (msg.length * 8) + (msg.length * 8 / 4294967296 % 4294967296) * 4294967296)

/-- The sixteen little-endian 32-bit message words of a 64-byte block. -/
def md5Words (block : List Nat) : List Nat :=
  (List.range 16).map (fun i =>
    block.getD (4 * i) 0 + 256 * block.getD (4 * i + 1) 0
      + 65536 * block.getD (4 * i + 2) 0 + 16777216 * block.getD (4 * i + 3) 0)

/-- One of the 64 MD5 rounds applied to the running state `(a, b, c, d)`. -/
def md5Round (M : List Nat) (st : Nat × Nat × Nat × Nat) (i : Nat) : Nat × Nat × Nat × Nat :=
  let a := st.1
  let b := st.2.1
  let c := st.2.2.1
  let d := st.2.2.2
  let f := if i < 16 then md5F b c d
    else if i < 32 then md5G b c d
    else if i < 48 then md5H b c d
    else md5I b c d
  let g := if i < 16 then i
    else if i < 32 then (5 * i + 1) % 16
    else if i < 48 then (3 * i + 5) % 16
    else (7 * i) % 16
  (d, u32 (b + rotl32 (a + f + md5K.getD i 0 + M.getD g 0) (md5S.getD i 0)), b, c)

/-- MD5 compression of one 64-byte block into the chaining state. -/
def md5Block (st : Nat × Nat × Nat × Nat) (block : List Nat) : Nat × Nat × Nat × Nat :=
  let r := (List.range 64).foldl (md5Round (md5Words block)) st
  (u32 (st.1 + r.1), u32 (st.2.1 + r.2.1), u32 (st.2.2.1 + r.2.2.1), u32 (st.2.2.2 + r.2.2.2))

/-- MD5 digest of a byte sequence: sixteen output bytes, as Go's
`crypto/md5` produces for `hasher.Sum(nil)`. -/
def md5 (msg : List Nat) : List Nat :=
  let padded := md5Pad msg
  let final := ((List.range (padded.length / 64)).map
      (fun k => (padded.drop (64 * k)).take 64)).foldl md5Block
      (0x67452301, 0xefcdab89, 0x98badcfe, 0x10325476)
  toLE32 final.1 ++ toLE32 final.2.1 ++ toLE32 final.2.2.1 ++ toLE32 final.2.2.2

/-- Lowercase hexadecimal digit. -/
def hexDigit (n : Nat) : Char :=
  if n < 10 then Char.ofNat (48 + n) else Char.ofNat (87 + n)

/-- Lowercase hexadecimal rendering of a byte sequence, Go's
`hex.EncodeToString`. -/
def hexEncode (bs : List Nat) : String :=
  String.mk (bs.flatMap (fun b => [hexDigit (b / 16), hexDigit (b % 16)]))

/-- The rearrangement `sort.Sort(a)` leaves in the receiver: its `Less`
dereferences the elements (`*n[i] < *n[j]`), a total order on the
pointed-to strings, so the slice afterwards holds the unique
non-decreasing arrangement of its multiset of strings; embedded by
insertion sort under the lexicographic order on `String`. -/
def sortGo (a : List String) : List String :=
  List.insertionSort (fun x y => x ≤ y) a

/-- Embedding of `AWSStringSlice.Hash`: Go sorts the receiver in place,
then feeds the bytes of each element, in the sorted order, to an MD5
hasher and hex-encodes the digest.  The first component is the returned
digest string; the second component is the state of the caller's slice
after the call (the receiver is mutated by `sort.Sort`). -/
def Hash (a : List String) : String × List String :=
  let sorted := sortGo a
  (hexEncode (md5 (sorted.flatMap stringBytes)), sorted)

/-- The Go slice expression `s[i:end]` (both bounds already clamped by the
caller). -/
def goSlice (s : List String) (i e : Int) : List String :=
  ((s.drop i.toNat).take (e - i).toNat)

/-- The `for i := 0; i < len(s); i += chunkSize` loop of `Chunk`.  `none`
means the loop never returns a value: either the slice expression
`s[i:end]` panics (bounds violated, possible when `chunkSize < 0`) or the
loop never terminates (`chunkSize = 0` never advances `i`; the fuel
`s.length + 1` is exhausted only in that case, since a positive
`chunkSize` advances `i` by at least one per iteration). -/
def chunkLoop (s : List String) (chunkSize : Int) :
    Nat → Int → List (List String) → Option (List (List String))
  | 0, _, _ => none
  | fuel + 1, i, acc =>
    if i < (s.length : Int) then
      let e := i + chunkSize
      let e := if e > (s.length : Int) then (s.length : Int) else e
      if 0 ≤ i ∧ i ≤ e ∧ e ≤ (s.length : Int) then
        chunkLoop s chunkSize fuel (i + chunkSize) (acc ++ [goSlice s i e])
      else none
    else some acc

/-- Embedding of `Chunk`: `chunkSize := (len(s) + size - 1) / size` with
Go's truncated signed division (`Int.tdiv`); division by zero panics
(`none`), otherwise the accumulation loop runs. -/
def Chunk (s : List String) (size : Int) : Option (List (List String)) :=
  if size = 0 then none
  else
    let chunkSize := Int.tdiv ((s.length : Int) + size - 1) size
    chunkLoop s chunkSize (s.length + 1) 0 []

/-! ## Embedding of the controller unit -/

/-- One managed resource of the controller (`*albingress.ALBIngress`).
Its identity is the pair `(ns, name)`; `DesiredSpec` and `LoadBalancer`
carry opaque payloads (`String` stand-ins) whose contents no claim
inspects — only nil-ness and identity matter to the embedded code. -/
structure ALBIngress where
  ns : String
  name : String
  Tainted : Bool
  DesiredSpec : Option String
  LoadBalancer : Option String
deriving DecidableEq, Repr

/-- Modelled from the spec: `ALBIngressesT.Find` (its source is outside
the given units).  Per §4.3, `find(identity) -> index or not-found` is an
identity-keyed linear lookup, equality identity-based; the Go call sites
test `Find(...) < 0` for not-found, so the embedding returns the index of
the first resource with the same `(ns, name)` identity, and `-1` when
none exists. -/
def findIngress (l : List ALBIngress) (target : ALBIngress) : Int :=
  match l.findIdx? (fun x => x.ns == target.ns && x.name == target.name) with
  | some i => (i : Int)
  | none => -1

/-- Modelled from the spec: `ALBIngress.StripDesiredState` (its source is
outside the given units).  Per §4.4 step 2, each deletable resource "has
its `DesiredSpec` cleared (its desired state becomes deleted)". -/
def stripDesiredState (r : ALBIngress) : ALBIngress :=
  { r with DesiredSpec := none }

/-- Embedding of `ALBController.ingressToDelete`: walk the previous list
`prevList` (`ac.ALBIngresses`); skip tainted resources; a resource absent
from `newList` (identity lookup `< 0`) with a non-nil `LoadBalancer` is
stripped of its desired state and appended. -/
def ingressToDelete (prevList newList : List ALBIngress) : List ALBIngress :=
  match prevList with
  | [] => []
  | ing :: rest =>
    if ing.Tainted then ingressToDelete rest newList
    else if findIngress newList ing < 0 then
      if ing.LoadBalancer.isSome then
        stripDesiredState ing :: ingressToDelete rest newList
      else ingressToDelete rest newList
    else ingressToDelete rest newList

/-- One ingress observed in the store during `OnUpdate`'s build loop:
`classValid` is the `class.IsValid` test, `built` the result of
`NewALBIngressFromIngress` (`none` embeds its nil return), `buildErr`
whether it also returned a non-nil error. -/
structure ObservedIngress where
  classValid : Bool
  built : Option ALBIngress
  buildErr : Bool
deriving DecidableEq, Repr

/-- Embedding of `OnUpdate`'s list-building loop (lines 95–121): skip
declarations failing the class check, skip nil construction results,
mark `Tainted` on a construction error, append the rest in order. -/
def buildNewList (items : List ObservedIngress) : List ALBIngress :=
  match items with
  | [] => []
  | o :: rest =>
    if !o.classValid then buildNewList rest
    else
      match o.built with
      | none => buildNewList rest
      | some ing =>
        (if o.buildErr then { ing with Tainted := true } else ing) :: buildNewList rest

/-- Embedding of `ALBController.OnUpdate`.  Inputs: the previous
authoritative list `st` (`ac.ALBIngresses`), the observed store contents
`items`, and the outcome `reconcileFails i` of each spawned
`Reconcile` task.  Output: the committed list (the value assigned to
`ac.ALBIngresses`) and the returned error.  Per the source, the
`Reconcile` outcomes are recorded on each resource only and are never
consulted for the return value: `OnUpdate` ends in `return nil`. -/
def OnUpdate (st : List ALBIngress) (items : List ObservedIngress)
    (reconcileFails : Nat → Bool) : List ALBIngress × Option String :=
  let ALBIngresses := buildNewList items
  let deletable := ingressToDelete st ALBIngresses
  let ALBIngresses := if 0 < deletable.length then ALBIngresses ++ deletable else ALBIngresses
  (ALBIngresses, none)

/-- Observable events of one `OnUpdate` cycle, in happens-before order:
the commit of the authoritative list, the completion of each spawned
reconcile task, and the return of the call. -/
inductive SyncEvent where
  | commit
  | reconcileDone (i : Nat)
  | ret
deriving DecidableEq, Repr

/-- The happens-before linearization of one `OnUpdate` cycle as the
source orders it: the assignment `ac.ALBIngresses = ALBIngresses`
(line 133) precedes the spawning of every reconcile goroutine
(lines 137–144), and `wg.Wait()` (line 145) makes every task's completion
precede the `return nil` (line 147).  The relative order among the
`reconcileDone` events themselves is immaterial (the tasks are
concurrent); no claim depends on it. -/
def OnUpdateEvents (st : List ALBIngress) (items : List ObservedIngress)
    (reconcileFails : Nat → Bool) : List SyncEvent :=
  SyncEvent.commit ::
    ((List.range (OnUpdate st items reconcileFails).1.length).map SyncEvent.reconcileDone
      ++ [SyncEvent.ret])

/-- The Kubernetes service types (`api.ServiceType`). -/
inductive ServiceType where
  | ClusterIP
  | NodePort
  | LoadBalancer
  | ExternalName
deriving DecidableEq, Repr

/-- One entry of `Service.Spec.Ports` (`Port` and `NodePort` are Go
`int32` values). -/
structure ServicePort where
  Port : Int
  NodePort : Int
deriving DecidableEq, Repr

/-- The part of a Kubernetes `api.Service` the embedded code reads:
`Spec.Type` and `Spec.Ports`. -/
structure Service where
  specType : ServiceType
  ports : List ServicePort
deriving DecidableEq, Repr

/-- Embedding of `ALBController.GetServiceNodePort`.  The externally
owned store (`ac.storeLister.Service.GetByKey`) is a key-indexed partial
map; the source discards the lookup's error component, so only presence
matters.  Returns the first matching port's `NodePort` (Go widens it to
`int64`; values embedded as `Int`). -/
def GetServiceNodePort (store : String → Option Service) (serviceKey : String)
    (backendPort : Int) : Except String Int :=
  match store serviceKey with
  | none => Except.error ("Unable to find the " ++ serviceKey ++ " service")
  | some svc =>
    if svc.specType ≠ ServiceType.NodePort then
      Except.error (serviceKey ++ " service is not of type NodePort")
    else
      match svc.ports.find? (fun p => p.Port == backendPort) with
      | some p => Except.ok p.NodePort
      | none => Except.error ("Unable to find a port defined in the " ++ serviceKey ++ " service")

/-- Result of `Configure`: either the process was aborted by one of the
`logger.Exitf` calls (modelled from the spec §7, "Configuration-fatal:
invalid cluster identity at startup — process must not proceed") with the
given message, or validation passed and `Configure` proceeded. -/
inductive ConfigureOutcome where
  | exited (msg : String)
  | proceeded
deriving DecidableEq, Repr

/-- Embedding of `ALBController.Configure`'s cluster-name validation
(lines 69–79).  Go's `len` counts UTF-8 bytes and
`strings.Contains(s, "-")` is a byte-substring test; both checks are
embedded over the name's UTF-8 byte stream `stringBytes`.  For the
one-byte pattern `"-"`, substring containment is containment of the byte
`0x2D = 45` (every byte of a multi-byte encoding is `≥ 0x80`, proved
below as `flatMapUtf8_hyphen_mem`). -/
def Configure (clusterName : String) : ConfigureOutcome :=
  if (stringBytes clusterName).length > 11 then
    ConfigureOutcome.exited "Cluster name must be 11 characters or less"
  else if clusterName = "" then ConfigureOutcome.exited "A cluster name must be defined"
  else if (stringBytes clusterName).contains 45 then
    ConfigureOutcome.exited "Cluster name cannot contain '-'"
  else ConfigureOutcome.proceeded

/-! ## Helper lemmas -/

/-- The diff loop is the filter of the previous list by
not-tainted/absent/has-handle, with the desired state stripped. -/
theorem ingressToDelete_filterMap (P D : List ALBIngress) :
    ingressToDelete P D
      = (P.filter (fun r => !r.Tainted && decide (findIngress D r < 0)
          && r.LoadBalancer.isSome)).map stripDesiredState := by
  induction P with
  | nil => rfl
  | cons ing rest ih =>
    by_cases ht : ing.Tainted
    · simp [ingressToDelete, ht, ih]
    · by_cases hf : findIngress D ing < 0
      · by_cases hl : ing.LoadBalancer.isSome
        · simp [ingressToDelete, ht, hf, hl, ih]
        · simp [ingressToDelete, ht, hf, hl, ih]
      · simp [ingressToDelete, ht, hf, ih]

/-- The identity-lookup's not-found test: `findIngress D r < 0` holds
exactly when no resource of `D` shares `r`'s identity. -/
theorem findIngress_lt_zero_iff (D : List ALBIngress) (r : ALBIngress) :
    findIngress D r < 0 ↔ ∀ x ∈ D, ¬(x.ns = r.ns ∧ x.name = r.name) := by
  have h1 : findIngress D r < 0
      ↔ D.findIdx? (fun x => x.ns == r.ns && x.name == r.name) = none := by
    unfold findIngress
    cases h : D.findIdx? (fun x => x.ns == r.ns && x.name == r.name) with
    | none => simp
    | some i => simp
  rw [h1, List.findIdx?_eq_none_iff]
  constructor
  · intro h x hx hcon
    have := h x hx
    simp [hcon.1, hcon.2] at this
  · intro h x hx
    have := h x hx
    simp only [Bool.and_eq_false_iff, beq_eq_false_iff_ne, ne_eq]
    by_cases hns : x.ns = r.ns
    · right
      intro hn
      exact this ⟨hns, hn⟩
    · left
      exact hns

/-- The committed list is the freshly built list followed by the
deletable resources (the `len(deletable) > 0` guard is immaterial to the
value). -/
theorem onUpdate_committed_eq (st : List ALBIngress) (items : List ObservedIngress)
    (f : Nat → Bool) :
    (OnUpdate st items f).1
      = buildNewList items ++ ingressToDelete st (buildNewList items) := by
  unfold OnUpdate
  by_cases h : 0 < (ingressToDelete st (buildNewList items)).length
  · simp [h]
  · have : ingressToDelete st (buildNewList items) = [] := by
      rcases Nat.eq_zero_or_pos (ingressToDelete st (buildNewList items)).length with h0 | hp
      · exact List.length_eq_zero.mp h0
      · exact absurd hp h
    simp [this]

/-! ## Claims C2, C3 -/

/-- C2: for every previous committed set `P` and desired set `D`, the
deletable set is exactly the not-tainted members of `P` whose identity is
absent from `D` and whose external handle (`LoadBalancer`) is non-nil,
each taken exactly once in order with its desired state stripped; the
committed list appends exactly these to the new list; and the absence
test is identity-based, so no resource whose identity is in `D` (and no
resource with a nil handle) is ever included. -/
theorem ingressToDelete_diff_spec :
    (∀ P D : List ALBIngress,
      ingressToDelete P D
        = (P.filter (fun r => !r.Tainted && decide (findIngress D r < 0)
            && r.LoadBalancer.isSome)).map stripDesiredState)
    ∧ (∀ (D : List ALBIngress) (r : ALBIngress),
        findIngress D r < 0 ↔ ∀ x ∈ D, ¬(x.ns = r.ns ∧ x.name = r.name))
    ∧ (∀ (st : List ALBIngress) (items : List ObservedIngress) (f : Nat → Bool),
        (OnUpdate st items f).1
          = buildNewList items ++ ingressToDelete st (buildNewList items)) :=
  ⟨ingressToDelete_filterMap, findIngress_lt_zero_iff, onUpdate_committed_eq⟩

/-- C2 witness: a concrete previous set with one stale settled resource,
one tainted resource and one still-desired resource, against a concrete
desired set. -/
theorem ingressToDelete_diff_spec_witness :
    ingressToDelete
        [⟨"ns", "stale", false, some "d", some "lb"⟩,
         ⟨"ns", "bad", true, some "d", some "lb"⟩,
         ⟨"ns", "kept", false, some "d", some "lb"⟩]
        [⟨"ns", "kept", false, some "d2", none⟩]
      = ([⟨"ns", "stale", false, some "d", some "lb"⟩,
          ⟨"ns", "bad", true, some "d", some "lb"⟩,
          ⟨"ns", "kept", false, some "d", some "lb"⟩].filter
            (fun r => !r.Tainted
              && decide (findIngress [⟨"ns", "kept", false, some "d2", none⟩] r < 0)
              && r.LoadBalancer.isSome)).map stripDesiredState :=
  ingressToDelete_diff_spec.1 _ _

/-- C3: a tainted resource is never selected for deletion — the diff of
any previous set equals the diff of its not-tainted part (tainted
resources are skipped no matter their identity or handle), and every
deletable resource originates from a not-tainted member of the previous
set. -/
theorem tainted_never_deleted :
    (∀ P D : List ALBIngress,
      ingressToDelete P D = ingressToDelete (P.filter (fun r => !r.Tainted)) D)
    ∧ (∀ (P D : List ALBIngress) (r : ALBIngress), r ∈ ingressToDelete P D →
        ∃ r₀, r₀ ∈ P ∧ r₀.Tainted = false ∧ r = stripDesiredState r₀) := by
  constructor
  · intro P D
    rw [ingressToDelete_filterMap, ingressToDelete_filterMap, List.filter_filter]
    congr 1
    congr 1
    funext r
    by_cases ht : r.Tainted <;> simp [ht]
  · intro P D r hr
    rw [ingressToDelete_filterMap] at hr
    obtain ⟨r₀, hr₀, rfl⟩ := List.mem_map.mp hr
    have hmem := List.mem_of_mem_filter hr₀
    have hprop := List.of_mem_filter hr₀
    simp only [Bool.and_eq_true, Bool.not_eq_true'] at hprop
    exact ⟨r₀, hmem, hprop.1.1, rfl⟩

/-- C3 witness: a tainted stale resource with a live handle is skipped;
the diff of the singleton tainted set is empty. -/
theorem tainted_never_deleted_witness :
    ∃ r₀, r₀ ∈ [⟨"ns", "stale", false, some "d", some "lb"⟩,
        (⟨"ns", "bad", true, some "d", some "lb"⟩ : ALBIngress)]
      ∧ r₀.Tainted = false
      ∧ stripDesiredState (⟨"ns", "stale", false, some "d", some "lb"⟩ : ALBIngress)
          = stripDesiredState r₀ :=
  tainted_never_deleted.2
    [⟨"ns", "stale", false, some "d", some "lb"⟩, ⟨"ns", "bad", true, some "d", some "lb"⟩]
    [] (stripDesiredState ⟨"ns", "stale", false, some "d", some "lb"⟩) (by decide)

/-! ## Claim C9 -/

/-- Bytes of a single character's UTF-8 encoding contain the hyphen byte
`0x2D = 45` exactly when the character is `'-'` (a multi-byte encoding
emits only bytes `≥ 0x80`). -/
theorem utf8Bytes_hyphen (c : Char) : 45 ∈ utf8Bytes c.toNat ↔ c = '-' := by
  unfold utf8Bytes
  by_cases h1 : c.toNat < 0x80
  · rw [if_pos h1]
    simp only [List.mem_singleton]
    constructor
    · intro h
      exact Char.ext (UInt32.ext (h.symm.trans (by decide)))
    · intro h
      subst h
      rfl
  · rw [if_neg h1]
    constructor
    · intro h
      split_ifs at h <;> simp only [List.mem_cons, List.not_mem_nil, or_false] at h <;> omega
    · intro h
      subst h
      exact absurd (by decide) h1

/-- A UTF-8 byte stream contains the hyphen byte exactly when the
character sequence contains `'-'`. -/
theorem flatMapUtf8_hyphen_mem (cs : List Char) :
    45 ∈ cs.flatMap (fun ch => utf8Bytes ch.toNat) ↔ '-' ∈ cs := by
  induction cs with
  | nil => simp
  | cons c cs ih =>
    rw [List.flatMap_cons, List.mem_append, List.mem_cons]
    constructor
    · rintro (h | h)
      · exact Or.inl ((utf8Bytes_hyphen c).mp h).symm
      · exact Or.inr (ih.mp h)
    · rintro (h | h)
      · exact Or.inl ((utf8Bytes_hyphen c).mpr h.symm)
      · exact Or.inr (ih.mpr h)

/-- C9 counterexample: the claim "Configure aborts iff the name is
empty, longer than 11 characters, or contains a hyphen; any name
satisfying all three constraints passes" is false on the code — Go's
`len` counts bytes, so the 7-character, 14-byte name of acute-accented
letters satisfies all three character-level constraints yet aborts. -/
theorem configure_cluster_name_cex :
    ("ééééééé" : String) ≠ ""
      ∧ ("ééééééé" : String).length ≤ 11
      ∧ ("ééééééé" : String).data.contains '-' = false
      ∧ Configure "ééééééé" ≠ ConfigureOutcome.proceeded := by decide

/-- C9 (amended): `Configure` proceeds past cluster-name validation
exactly when the name is non-empty, at most 11 UTF-8 **bytes** long
(Go's `len` counts bytes, so a name of at most 11 characters whose
encoding exceeds 11 bytes still aborts), and free of hyphens; otherwise
one of the three fatal exits fires. -/
theorem configure_cluster_name_iff :
    ∀ clusterName : String,
      Configure clusterName = ConfigureOutcome.proceeded
        ↔ (clusterName ≠ "" ∧ (stringBytes clusterName).length ≤ 11
            ∧ clusterName.data.contains '-' = false) := by
  intro name
  have hc45 : (stringBytes name).contains 45 = true ↔ 45 ∈ stringBytes name := List.elem_iff
  have hcd : name.data.contains '-' = true ↔ '-' ∈ name.data := List.elem_iff
  have hbridge : (stringBytes name).contains 45 = name.data.contains '-' := by
    rw [Bool.eq_iff_iff, hc45, hcd]
    exact flatMapUtf8_hyphen_mem name.data
  unfold Configure
  by_cases h1 : (stringBytes name).length > 11
  · rw [if_pos h1]
    exact ⟨fun h => absurd h (by simp), fun ⟨_, hl, _⟩ => absurd h1 (by omega)⟩
  · rw [if_neg h1]
    by_cases h2 : name = ""
    · rw [if_pos h2]
      exact ⟨fun h => absurd h (by simp), fun ⟨hne, _, _⟩ => absurd h2 hne⟩
    · rw [if_neg h2]
      by_cases h3 : (stringBytes name).contains 45
      · rw [if_pos h3]
        refine ⟨fun h => absurd h (by simp), fun ⟨_, _, hcf⟩ => ?_⟩
        rw [hbridge, hcf] at h3
        simp at h3
      · rw [if_neg h3]
        refine ⟨fun _ => ⟨h2, by omega, ?_⟩, fun _ => rfl⟩
        rw [← hbridge]
        simpa using h3

/-- C9 witness: an 11-character, 11-byte hyphen-free name passes
validation. -/
theorem configure_cluster_name_iff_witness :
    Configure "prodcluster" = ConfigureOutcome.proceeded :=
  (configure_cluster_name_iff "prodcluster").mpr (by decide)

/-! ## Claim C8 -/

/-- C8: `GetServiceNodePort` errors exactly when the service is absent
from the store, its type is not `NodePort`, or no port entry matches the
target port; otherwise it returns the first matching entry's `NodePort`;
in particular the store mapping `ns/svc` to a `NodePort` service with
port entry `{Port:80, NodePort:30080}` resolves `("ns/svc", 80)` to
`30080`. -/
theorem getServiceNodePort_spec :
    (∀ (store : String → Option Service) (serviceKey : String) (backendPort : Int),
      (GetServiceNodePort store serviceKey backendPort).isOk = false
        ↔ store serviceKey = none
          ∨ ∃ svc, store serviceKey = some svc
              ∧ (svc.specType ≠ ServiceType.NodePort ∨ ∀ p ∈ svc.ports, p.Port ≠ backendPort))
    ∧ (∀ (store : String → Option Service) (serviceKey : String) (backendPort : Int)
        (svc : Service) (p : ServicePort),
        store serviceKey = some svc → svc.specType = ServiceType.NodePort →
        svc.ports.find? (fun q => q.Port == backendPort) = some p →
        GetServiceNodePort store serviceKey backendPort = Except.ok p.NodePort)
    ∧ GetServiceNodePort
        (fun k => if k = "ns/svc"
          then some ⟨ServiceType.NodePort, [⟨80, 30080⟩]⟩ else none) "ns/svc" 80
      = Except.ok 30080 := by
  refine ⟨?_, ?_, rfl⟩
  · intro store key bp
    unfold GetServiceNodePort
    cases hs : store key with
    | none => simp [Except.isOk, Except.toBool]
    | some svc =>
      dsimp only
      by_cases hty : svc.specType = ServiceType.NodePort
      · rw [if_neg (by simp [hty])]
        cases hf : svc.ports.find? (fun q => q.Port == bp) with
        | some p =>
          have hp := List.find?_some hf
          have hmem := List.mem_of_find?_eq_some hf
          simp only [beq_iff_eq] at hp
          simp only [Except.isOk, Except.toBool]
          constructor
          · intro h
            exact absurd h (by simp)
          · rintro (h | ⟨svc', hsvc', h | h⟩)
            · exact absurd h (by simp)
            · injection hsvc' with he
              subst he
              exact absurd hty h
            · injection hsvc' with he
              subst he
              exact absurd hp (h p hmem)
        | none =>
          rw [List.find?_eq_none] at hf
          simp only [Except.isOk, Except.toBool]
          constructor
          · intro _
            refine Or.inr ⟨svc, rfl, Or.inr fun p hp => ?_⟩
            have := hf p hp
            simpa using this
          · intro _
            trivial
      · rw [if_pos (by simp [hty])]
        simp only [Except.isOk, Except.toBool]
        constructor
        · intro _
          exact Or.inr ⟨svc, rfl, Or.inl hty⟩
        · intro _
          trivial
  · intro store key bp svc p hs hty hf
    unfold GetServiceNodePort
    rw [hs]
    simp [hty, hf]

/-- C8 witness: the scenario store, via the first-match clause. -/
theorem getServiceNodePort_spec_witness :
    GetServiceNodePort
        (fun k => if k = "ns/svc"
          then some ⟨ServiceType.NodePort, [⟨80, 30080⟩]⟩ else none) "ns/svc" 80
      = Except.ok (30080 : Int) :=
  getServiceNodePort_spec.2.1 _ "ns/svc" 80 ⟨ServiceType.NodePort, [⟨80, 30080⟩]⟩
    ⟨80, 30080⟩ (by decide) rfl (by decide)

/-! ## Claims C6, C10 -/

/-- The sorted arrangement `Hash` computes depends only on the multiset
of elements. -/
theorem sortGo_perm_eq {a b : List String} (h : a.Perm b) : sortGo a = sortGo b := by
  apply List.eq_of_perm_of_sorted (r := fun x y : String => x ≤ y)
  · exact (List.perm_insertionSort _ a).trans (h.trans (List.perm_insertionSort _ b).symm)
  · exact List.sorted_insertionSort _ a
  · exact List.sorted_insertionSort _ b

/-- C6: the digest `Hash` returns is permutation-invariant — for every
two arrangements of the same multiset of strings the returned hex string
is identical, because the digest is computed over the bytes of the
elements in sorted order. -/
theorem hash_perm_invariant :
    ∀ a b : List String, a.Perm b → (Hash a).1 = (Hash b).1 := by
  intro a b h
  show (hexEncode (md5 ((sortGo a).flatMap stringBytes)))
    = (hexEncode (md5 ((sortGo b).flatMap stringBytes)))
  rw [sortGo_perm_eq h]

/-- C6 witness: two permutations of a two-element collection hash
identically. -/
theorem hash_perm_invariant_witness :
    (["beta", "alpha"] : List String).Perm ["alpha", "beta"]
      ∧ (Hash ["beta", "alpha"]).1 = (Hash ["alpha", "beta"]).1 :=
  ⟨by decide, hash_perm_invariant _ _ (by decide)⟩

/-- C10: `Hash` mutates its receiver — after the call the caller's slice
is the lexicographically sorted arrangement of the same elements: it is
sorted under the string order, and it is a permutation of the original
contents (the multiset of elements is unchanged, the original order is
replaced by sorted order). -/
theorem hash_mutates_receiver_sorted :
    ∀ a : List String,
      List.Sorted (fun x y : String => x ≤ y) (Hash a).2 ∧ (Hash a).2.Perm a := by
  intro a
  exact ⟨List.sorted_insertionSort _ a, List.perm_insertionSort _ a⟩

/-! ## Claim C5 -/

/-- Ceiling-division peels off one full group: for a positive remainder
`m` and group size `c`, `ceil(m / c) = ceil((m - c) / c) + 1`. -/
theorem ceil_div_step (m c : Nat) (hm : 0 < m) (hc : 0 < c) :
    (m + c - 1) / c = ((m - c) + c - 1) / c + 1 := by
  have key : ∀ x : Nat, (x + c) / c = x / c + 1 := fun x => Nat.add_div_right x hc
  have e1 : m + c - 1 = (m - 1) + c := by omega
  rcases lt_or_le c m with hlt | hle
  · have e2 : (m - c) + c - 1 = (m - c - 1) + c := by omega
    have e3 : m - 1 = (m - c - 1) + c := by omega
    rw [e1, key (m - 1), e3, key (m - c - 1), e2, key (m - c - 1)]
  · have e2 : m - c = 0 := by omega
    rw [e1, key (m - 1), e2]
    have d1 : (m - 1) / c = 0 := Nat.div_eq_of_lt (by omega)
    have d2 : (0 + c - 1) / c = 0 := Nat.div_eq_of_lt (by omega)
    rw [d1, d2]

/-- Loop invariant of `Chunk`'s accumulation loop for a positive chunk
size: from index `k` with enough fuel, the loop returns, the groups it
appends concatenate to the remaining suffix, and it appends exactly
`ceil((len - k) / c)` groups. -/
theorem chunkLoop_pos_spec (s : List String) (c : Nat) (hc : 0 < c) :
    ∀ (fuel k : Nat) (acc : List (List String)), s.length - k < fuel →
      ∃ res, chunkLoop s (c : Int) fuel (k : Int) acc = some res
        ∧ res.join = acc.join ++ s.drop k
        ∧ res.length = acc.length + ((s.length - k) + c - 1) / c := by
  intro fuel
  induction fuel with
  | zero => intro k acc h; omega
  | succ n ih =>
    intro k acc h
    by_cases hk : k < s.length
    · have hki : (k : Int) < (s.length : Int) := by exact_mod_cast hk
      rw [chunkLoop, if_pos hki]
      dsimp only
      have hcond : 0 ≤ (k : Int)
          ∧ (k : Int) ≤ (if (k : Int) + (c : Int) > (s.length : Int)
              then (s.length : Int) else (k : Int) + (c : Int))
          ∧ (if (k : Int) + (c : Int) > (s.length : Int)
              then (s.length : Int) else (k : Int) + (c : Int)) ≤ (s.length : Int) := by
        refine ⟨by positivity, ?_, ?_⟩ <;> split_ifs with hgt <;> omega
      rw [if_pos hcond]
      have hslice : goSlice s (k : Int)
          (if (k : Int) + (c : Int) > (s.length : Int)
            then (s.length : Int) else (k : Int) + (c : Int)) = (s.drop k).take c := by
        unfold goSlice
        split_ifs with hgt
        · have h1 : (((s.length : Int) - (k : Int)).toNat) = s.length - k := by omega
          have h2 : ((k : Int).toNat) = k := by omega
          rw [h1, h2]
          have hlen : (s.drop k).length = s.length - k := List.length_drop k s
          rw [List.take_of_length_le (by rw [hlen]), List.take_of_length_le (by rw [hlen]; omega)]
        · have h1 : (((k : Int) + (c : Int) - (k : Int)).toNat) = c := by omega
          have h2 : ((k : Int).toNat) = k := by omega
          rw [h1, h2]
      rw [hslice]
      rw [show (k : Int) + (c : Int) = ((k + c : Nat) : Int) by push_cast; ring]
      obtain ⟨res, hres, hjoin, hlen⟩ := ih (k + c) (acc ++ [(s.drop k).take c]) (by omega)
      refine ⟨res, hres, ?_, ?_⟩
      · rw [hjoin]
        have hdd : s.drop (k + c) = (s.drop k).drop c := by
          rw [List.drop_drop, Nat.add_comm]
        rw [hdd]
        simp only [List.flatten_append, List.flatten_cons, List.flatten_nil,
          List.append_nil, List.append_assoc]
        rw [List.take_append_drop]
      · rw [hlen]
        have hstep : ((s.length - k) + c - 1) / c = ((s.length - k - c) + c - 1) / c + 1 :=
          ceil_div_step (s.length - k) c (by omega) hc
        have harg : s.length - (k + c) = s.length - k - c := by omega
        rw [harg]
        simp only [List.length_append, List.length_singleton]
        omega
    · have hki : ¬((k : Int) < (s.length : Int)) := by exact_mod_cast hk
      rw [chunkLoop, if_neg hki]
      refine ⟨acc, rfl, ?_, ?_⟩
      · rw [List.drop_eq_nil_of_le (by omega), List.append_nil]
      · have h0 : s.length - k = 0 := by omega
        rw [h0]
        have d1 : (0 + c - 1) / c = 0 := Nat.div_eq_of_lt (by omega)
        rw [d1]
        omega

/-- C5: for every sequence and positive group count `g`, `Chunk` returns
groups whose in-order concatenation is the original sequence, and the
number of groups is `ceil(len / ceil(len/g))` (the `Nat` ceiling formula
also gives `0` groups for the empty sequence); in particular splitting
`[1..7]` into 3 groups yields `[[1,2,3],[4,5,6],[7]]`. -/
theorem chunk_roundtrip :
    (∀ (s : List String) (g : Nat), 0 < g →
      ∃ cs, Chunk s (g : Int) = some cs ∧ cs.join = s
        ∧ cs.length = (s.length + ((s.length + g - 1) / g) - 1) / ((s.length + g - 1) / g))
    ∧ Chunk ["1", "2", "3", "4", "5", "6", "7"] 3
        = some [["1", "2", "3"], ["4", "5", "6"], ["7"]] := by
  constructor
  · intro s g hg
    have hgz : (g : Int) ≠ 0 := by
      simp only [ne_eq, Nat.cast_eq_zero]
      omega
    unfold Chunk
    rw [if_neg hgz]
    dsimp only
    rw [show ((s.length : Int) + (g : Int) - 1) = ((s.length + g - 1 : Nat) : Int) by
      push_cast [Nat.cast_sub (by omega : 1 ≤ s.length + g)]; ring]
    rw [show Int.tdiv ((s.length + g - 1 : Nat) : Int) ((g : Nat) : Int)
        = (((s.length + g - 1) / g : Nat) : Int) from rfl]
    rcases Nat.eq_zero_or_pos s.length with h0 | hpos
    · have hs : s = [] := List.length_eq_zero.mp h0
      subst hs
      refine ⟨[], ?_, rfl, ?_⟩
      · rw [chunkLoop]
        rw [if_neg (by simp)]
      · have hq : (([] : List String).length + g - 1) / g = 0 := Nat.div_eq_of_lt (by simp; omega)
        rw [hq]
        simp
    · obtain ⟨res, hres, hjoin, hlen⟩ :=
        chunkLoop_pos_spec s ((s.length + g - 1) / g) (Nat.div_pos (by omega) hg)
          (s.length + 1) 0 [] (by omega)
      refine ⟨res, ?_, ?_, ?_⟩
      · simpa using hres
      · simpa using hjoin
      · rw [hlen]
        simp
  · decide

/-- C5 witness: splitting a three-element sequence into two groups. -/
theorem chunk_roundtrip_witness :
    0 < 2 ∧ ∃ cs, Chunk ["a", "b", "c"] ((2 : Nat) : Int) = some cs
      ∧ cs.join = ["a", "b", "c"]
      ∧ cs.length = (3 + ((3 + 2 - 1) / 2) - 1) / ((3 + 2 - 1) / 2) :=
  ⟨by decide, chunk_roundtrip.1 ["a", "b", "c"] 2 (by decide)⟩

/-! ## Claim C7 -/

/-- With a zero chunk size and a non-empty slice the loop never advances
its index: no fuel suffices (the Go loop runs forever). -/
theorem chunkLoop_zero_stuck (s : List String) (hpos : 0 < s.length) :
    ∀ (fuel : Nat) (acc : List (List String)), chunkLoop s (0 : Int) fuel 0 acc = none := by
  intro fuel
  induction fuel with
  | zero => intro acc; rfl
  | succ n ih =>
    intro acc
    rw [chunkLoop, if_pos (by exact_mod_cast hpos)]
    dsimp only
    split_ifs with h1 h2 <;>
      first
        | rfl
        | exact absurd h1 (by omega)
        | (rw [show (0 : Int) + 0 = 0 by ring]; exact ih _)
/-- With a negative chunk size and a non-empty slice the first iteration
already violates the slice bounds (`end < i`): the Go expression
`s[0:end]` panics. -/
theorem chunkLoop_neg_panic (s : List String) (hpos : 0 < s.length) (cs : Int)
    (hneg : cs < 0) (fuel : Nat) (acc : List (List String)) :
    chunkLoop s cs (fuel + 1) 0 acc = none := by
  rw [chunkLoop, if_pos (by exact_mod_cast hpos)]
  dsimp only
  split_ifs with h1 h2 <;>
    first
      | rfl
      | exact absurd h1 (by omega)

/-- C7 counterexample: the claim "for every sequence and every
`groupCount ≤ 0` the chunking arithmetic faults rather than returning a
result" is false — `Chunk [""] (-1)` computes `chunkSize = 1` and returns
`[[""]]` normally. -/
theorem chunk_nonpositive_cex :
    (-1 : Int) ≤ 0 ∧ Chunk [""] (-1) = some [[""]] ∧ Chunk [""] (-1) ≠ none := by
  exact ⟨by decide, by decide, by decide⟩

/-- C7 (amended): with `groupCount = 0` the division faults on every
sequence; with `groupCount < 0` the call fails to return a result exactly
when the sequence is non-empty and the derived chunk size
`(len + g - 1) tdiv g` is non-positive (bounds panic when negative,
non-termination when zero) — otherwise (empty sequence, or positive
derived chunk size) it returns a result. -/
theorem chunk_nonpositive_fault_iff :
    ∀ (s : List String) (g : Int), g ≤ 0 →
      (Chunk s g = none
        ↔ g = 0 ∨ (s ≠ [] ∧ Int.tdiv ((s.length : Int) + g - 1) g ≤ 0)) := by
  intro s g hg
  rcases eq_or_lt_of_le hg with h0 | hneg
  · subst h0
    simp [Chunk]
  · have hgz : g ≠ 0 := by omega
    unfold Chunk
    rw [if_neg hgz]
    dsimp only
    set cs := Int.tdiv ((s.length : Int) + g - 1) g with hcs
    rcases eq_or_ne s [] with hse | hsne
    · subst hse
      constructor
      · intro h
        rw [chunkLoop, if_neg (by simp)] at h
        exact absurd h (by simp)
      · rintro (h | ⟨hne, _⟩)
        · exact absurd h hgz
        · exact absurd rfl hne
    · have hpos : 0 < s.length := List.length_pos.mpr hsne
      rcases lt_trichotomy cs 0 with hcneg | hczero | hcpos
      · rw [chunkLoop_neg_panic s hpos cs hcneg s.length []]
        simp only [true_iff]
        exact Or.inr ⟨hsne, by omega⟩
      · rw [hczero, chunkLoop_zero_stuck s hpos (s.length + 1) []]
        simp only [true_iff]
        exact Or.inr ⟨hsne, by omega⟩
      · have hcast : cs = ((cs.toNat : Nat) : Int) := (Int.toNat_of_nonneg (by omega)).symm
        obtain ⟨res, hres, _, _⟩ :=
          chunkLoop_pos_spec s cs.toNat (by omega) (s.length + 1) 0 [] (by omega)
        have hres' : chunkLoop s ((cs.toNat : Nat) : Int) (s.length + 1) 0 [] = some res := by
          simpa using hres
        rw [hcast, hres']
        constructor
        · intro h
          exact absurd h (by simp)
        · rintro (h | ⟨_, hle⟩)
          · exact absurd h hgz
          · omega

/-- C7 witness: a negative group count on a one-element sequence has a
positive derived chunk size, so neither side of the amended equivalence
holds. -/
theorem chunk_nonpositive_fault_iff_witness :
    (-2 : Int) ≤ 0
      ∧ (Chunk [""] (-2) = none
          ↔ (-2 : Int) = 0
            ∨ (([""] : List String) ≠ []
                ∧ Int.tdiv ((([""] : List String).length : Int) + -2 - 1) (-2) ≤ 0)) :=
  ⟨by decide, chunk_nonpositive_fault_iff [""] (-2) (by decide)⟩

/-! ## Claims C1, C4 -/

/-- A concrete untainted resource with a desired spec and no handle yet. -/
def sampleIngress : ALBIngress := ⟨"default", "app", false, some "spec", none⟩

/-- A concrete previous authoritative list: empty (first cycle). -/
def sampleState : List ALBIngress := []

/-- A concrete store observation: one valid declaration that builds
cleanly. -/
def sampleItems : List ObservedIngress := [⟨true, some sampleIngress, false⟩]

/-- A concrete reconcile-outcome assignment: every task succeeds. -/
def sampleOutcomes : Nat → Bool := fun _ => false

/-- The commit event appears only at the head of the cycle's event list. -/
theorem onUpdateEvents_commit_head (st : List ALBIngress) (items : List ObservedIngress)
    (f : Nat → Bool) (p : Nat)
    (hp : (OnUpdateEvents st items f)[p]? = some SyncEvent.commit) : p = 0 := by
  by_contra hne
  obtain ⟨p', rfl⟩ : ∃ p', p = p' + 1 := ⟨p - 1, by omega⟩
  rw [OnUpdateEvents, List.getElem?_cons_succ] at hp
  have hmem := List.getElem?_mem hp
  simp at hmem

/-- C1 counterexample: the claim "the authoritative set is replaced only
after every per-resource reconcile task has completed (commit is the last
step)" is false on the code — in the concrete cycle the commit event
precedes the completion of reconcile task 0. -/
theorem onUpdate_commit_not_last_cex :
    ¬ (∀ p q j : Nat,
        (OnUpdateEvents sampleState sampleItems sampleOutcomes)[p]?
            = some (SyncEvent.reconcileDone j) →
        (OnUpdateEvents sampleState sampleItems sampleOutcomes)[q]? = some SyncEvent.commit →
        p < q) :=
  fun h => absurd (h 1 0 0 (by decide) (by decide)) (by decide)

/-- C1 (amended): the engine replaces its authoritative set reference
before the per-resource reconcile tasks run — in every cycle's
happens-before order, every occurrence of the commit event strictly
precedes every reconcile-task completion, so a concurrent reader of the
authoritative reference (the status endpoint) can observe the committed
new set while its resources are still being reconciled; commit is the
first step of the publish/reconcile phase, not the last. -/
theorem onUpdate_commit_precedes_reconcile :
    ∀ (st : List ALBIngress) (items : List ObservedIngress) (f : Nat → Bool) (p q j : Nat),
      (OnUpdateEvents st items f)[p]? = some SyncEvent.commit →
      (OnUpdateEvents st items f)[q]? = some (SyncEvent.reconcileDone j) →
      p < q := by
  intro st items f p q j hp hq
  have hp0 : p = 0 := onUpdateEvents_commit_head st items f p hp
  subst hp0
  rcases Nat.eq_zero_or_pos q with hq0 | hqpos
  · subst hq0
    rw [OnUpdateEvents, List.getElem?_cons_zero] at hq
    exact absurd hq (by simp)
  · exact hqpos

/-- C1 witness: in the concrete cycle the commit at position 0 precedes
the reconcile completion at position 1. -/
theorem onUpdate_commit_precedes_reconcile_witness :
    (OnUpdateEvents sampleState sampleItems sampleOutcomes)[0]? = some SyncEvent.commit
      ∧ (OnUpdateEvents sampleState sampleItems sampleOutcomes)[1]?
          = some (SyncEvent.reconcileDone 0)
      ∧ 0 < 1 :=
  ⟨by decide, by decide,
    onUpdate_commit_precedes_reconcile sampleState sampleItems sampleOutcomes 0 1 0
      (by decide) (by decide)⟩

/-- C4: `OnUpdate` never returns an error — for every previous state,
every observed store content and every combination of per-resource
reconcile outcomes the returned error is nil, and the return event
follows the completion of every reconcile task (the cycle joins on all
tasks before returning). -/
theorem onUpdate_returns_nil :
    (∀ (st : List ALBIngress) (items : List ObservedIngress) (f : Nat → Bool),
      (OnUpdate st items f).2 = none)
    ∧ (∀ (st : List ALBIngress) (items : List ObservedIngress) (f : Nat → Bool) (q r j : Nat),
        (OnUpdateEvents st items f)[q]? = some (SyncEvent.reconcileDone j) →
        (OnUpdateEvents st items f)[r]? = some SyncEvent.ret →
        q < r) := by
  constructor
  · intro st items f
    rfl
  · intro st items f q r j hq hr
    set pre : List SyncEvent :=
      SyncEvent.commit
        :: (List.range (OnUpdate st items f).1.length).map SyncEvent.reconcileDone with hpre
    have htr : OnUpdateEvents st items f = pre ++ [SyncEvent.ret] := by
      rw [OnUpdateEvents, hpre]
      rfl
    have hq' : q < pre.length := by
      by_contra hge
      push_neg at hge
      rw [htr, List.getElem?_append_right hge] at hq
      rcases hd : q - pre.length with _ | m
      · rw [hd] at hq
        exact absurd hq (by simp)
      · rw [hd] at hq
        exact absurd hq (by simp)
    have hr' : pre.length ≤ r := by
      by_contra hlt
      push_neg at hlt
      rw [htr, List.getElem?_append_left hlt] at hr
      have hmem := List.getElem?_mem hr
      rw [hpre] at hmem
      simp at hmem
    omega

/-- C4 witness: in the concrete cycle the returned error is nil and the
reconcile completion at position 1 precedes the return at position 2. -/
theorem onUpdate_returns_nil_witness :
    (OnUpdateEvents sampleState sampleItems sampleOutcomes)[1]?
        = some (SyncEvent.reconcileDone 0)
      ∧ (OnUpdateEvents sampleState sampleItems sampleOutcomes)[2]? = some SyncEvent.ret
      ∧ 1 < 2 :=
  ⟨by decide, by decide,
    onUpdate_returns_nil.2 sampleState sampleItems sampleOutcomes 1 2 0
      (by decide) (by decide)⟩
